import Mathlib

/-!
Verification of the fixed-layout type-information subsystem
(`lib/IRGen/FixedTypeInfo.h`).

Embedding conventions:
* `llvm::BitVector` is a `List Bool`; bit `i` of the mask is element `i`
  (`SpareBits[0]` is the LSB of the first byte, as documented in the header).
  Reading past the end of the vector yields an unset bit, so `getD i false`
  models `BitVector::operator[]` on arbitrary indices.
* `Size` and `Alignment` are `Nat` (byte counts).
* An `llvm::ConstantInt` of width `bits` is a `Nat` reduced modulo `2 ^ bits`.
* The value stored in memory at a source address is a `Nat` read as a
  little-endian integer, so bit `i` of the storage is `Nat.testBit src i`.
* The extra-inhabitant index returned by `getExtraInhabitantIndex` is an
  `Int`, since `-1` is the sentinel for a valid value.
-/

/-- The state of `FixedTypeInfo` (including the alignment and POD flag held
by its base class `TypeInfo`). -/
structure FixedTypeInfo where
  /-- The storage size of this type in bytes.  May be zero. -/
  StorageSize : Nat
  /-- The spare bit mask for this type. `SpareBits[0]` is the LSB of the
  first byte. May be empty if the type has no spare bits. -/
  SpareBits : List Bool
  /-- Storage alignment, held by the `TypeInfo` base. -/
  StorageAlignment : Nat
  /-- POD (trivially copyable) flag, held by the `TypeInfo` base. -/
  pod : Bool
  deriving Repr, DecidableEq

/-- `isKnownEmpty`: whether this type is known to be empty
(`StorageSize.isZero()`). -/
def FixedTypeInfo.isKnownEmpty (ti : FixedTypeInfo) : Bool :=
  ti.StorageSize == 0

/-- `getBestKnownAlignment` of the `TypeInfo` base: the stored alignment. -/
def FixedTypeInfo.getBestKnownAlignment (ti : FixedTypeInfo) : Nat :=
  ti.StorageAlignment

/-- `getFixedAlignment`: returns `getBestKnownAlignment()`. -/
def FixedTypeInfo.getFixedAlignment (ti : FixedTypeInfo) : Nat :=
  ti.getBestKnownAlignment

/-- `getFixedSize`: returns `StorageSize`. -/
def FixedTypeInfo.getFixedSize (ti : FixedTypeInfo) : Nat :=
  ti.StorageSize

/-- Modelled from the spec: `Size::roundUpToAlignment` is not part of this
header; the spec describes it as `roundUpToMultiple(storageSize, alignment)`,
the smallest multiple of `a` that is at least `s`. -/
def Size.roundUpToAlignment (s a : Nat) : Nat :=
  (s + a - 1) / a * a

/-- `getFixedStride`: the storage size rounded up to the alignment. -/
def FixedTypeInfo.getFixedStride (ti : FixedTypeInfo) : Nat :=
  Size.roundUpToAlignment ti.StorageSize ti.getFixedAlignment

/-- `completeFixed(size, alignment)`: stores the given size and calls
`setStorageAlignment(alignment)`.  The source performs no check. -/
def FixedTypeInfo.completeFixed (ti : FixedTypeInfo) (size alignment : Nat) :
    FixedTypeInfo :=
  { ti with StorageSize := size, StorageAlignment := alignment }

/-- The largest representable 31-bit unsigned value, the cap on
extra-inhabitant indices (`decode` maps representations to "a unique 31-bit
identifier"). -/
def INDEX_MAX : Nat := 2 ^ 31 - 1

/-- Modelled from the spec: the body of `getSpareBitExtraInhabitantCount` is
not in this header (only its declaration).  Spec:
`count = min(2^popcount(spareBitMask) - 1, INDEX_MAX)`. -/
def FixedTypeInfo.getSpareBitExtraInhabitantCount (ti : FixedTypeInfo) : Nat :=
  min (2 ^ ti.SpareBits.count true - 1) INDEX_MAX

/-- `getFixedExtraInhabitantCount`: virtual, defaults to
`getSpareBitExtraInhabitantCount()`. -/
def FixedTypeInfo.getFixedExtraInhabitantCount (ti : FixedTypeInfo) : Nat :=
  ti.getSpareBitExtraInhabitantCount

/-- `mayHaveExtraInhabitants`: `getFixedExtraInhabitantCount() > 0`. -/
def FixedTypeInfo.mayHaveExtraInhabitants (ti : FixedTypeInfo) : Bool :=
  ti.getFixedExtraInhabitantCount > 0

/-- `hasFixedSpareBits`: `SpareBits.any()`. -/
def FixedTypeInfo.hasFixedSpareBits (ti : FixedTypeInfo) : Bool :=
  ti.SpareBits.any id

/-- Scatter the low bits of `v` into the positions set in `mask`, scanning
spare-bit positions from lowest to highest: the k-th set position of `mask`
receives bit k of `v`; positions not set in `mask` stay zero.  The result is
the value of the produced bit pattern. -/
def scatterBits : List Bool → Nat → Nat
  | [], _ => 0
  | b :: rest, v =>
    if b then v % 2 + 2 * scatterBits rest (v / 2)
    else 2 * scatterBits rest v

/-- Modelled from the spec: the body of
`getSpareBitFixedExtraInhabitantValue(IGM, bits, index)` is not in this
header (only its declaration).  Spec: produce an integer constant of width
`bits`: start from all-zero; scan spare-bit positions from lowest to
highest; set the k-th spare-bit position iff bit k of `index + 1` is 1. -/
def FixedTypeInfo.getSpareBitFixedExtraInhabitantValue (ti : FixedTypeInfo)
    (bits index : Nat) : Nat :=
  scatterBits ti.SpareBits (index + 1) % 2 ^ bits

/-- `getFixedExtraInhabitantValue`: virtual, defaults to
`getSpareBitFixedExtraInhabitantValue`. -/
def FixedTypeInfo.getFixedExtraInhabitantValue (ti : FixedTypeInfo)
    (bits index : Nat) : Nat :=
  ti.getSpareBitFixedExtraInhabitantValue bits index

/-- Gather the bits of `src` selected by `mask` into a dense value, in
spare-bit scan order: the bit of `src` at the k-th set position of `mask`
becomes bit k of the result. -/
def gatherBits : List Bool → Nat → Nat
  | [], _ => 0
  | b :: rest, s =>
    if b then s % 2 + 2 * gatherBits rest (s / 2)
    else gatherBits rest (s / 2)

/-- Modelled from the spec: the body of
`getSpareBitExtraInhabitantIndex(IGF, src)` is not in this header (only its
declaration).  Spec: mask the stored value with the spare-bit mask, compact
the masked bits into a dense value `v` in spare-bit scan order; if `v == 0`
return the sentinel `-1`, otherwise return `v - 1`. -/
def FixedTypeInfo.getSpareBitExtraInhabitantIndex (ti : FixedTypeInfo)
    (src : Nat) : Int :=
  if gatherBits ti.SpareBits src = 0 then -1
  else (gatherBits ti.SpareBits src : Int) - 1

/-- `getExtraInhabitantIndex`: delegates to
`getSpareBitExtraInhabitantIndex`. -/
def FixedTypeInfo.getExtraInhabitantIndex (ti : FixedTypeInfo) (src : Nat) :
    Int :=
  ti.getSpareBitExtraInhabitantIndex src

/-- Read bit `i` of a mask, treating bits beyond its length as spare
(`true`): the extension-with-true view used by the merge operation. -/
def mget (l : List Bool) (i : Nat) : Bool :=
  l.getD i true

/-- Modelled from the spec: the body of `applyFixedSpareBitsMask(bits)` is
not in this header (only its declaration and doc comment).  Header doc:
AND the spare-bit mask into `bits`, clearing bits used by valid
representations; if `bits` is smaller than this type it is grown and filled
with bits direct from the spare bits mask; if larger, the trailing bits are
untouched.  Equivalently, both vectors are extended with `true` to the
longer length and intersected pointwise. -/
def applySpareBitsMask (spare bits : List Bool) : List Bool :=
  (List.range (max bits.length spare.length)).map
    (fun i => bits.getD i true && spare.getD i true)

/-- `applyFixedSpareBitsMask`: applies this type's spare-bit mask to the
accumulator `bits`. -/
def FixedTypeInfo.applyFixedSpareBitsMask (ti : FixedTypeInfo)
    (bits : List Bool) : List Bool :=
  applySpareBitsMask ti.SpareBits bits

/-- Folding `applyFixedSpareBitsMask` over a list of variant masks, as in
the header's enum example: start from an accumulator and merge each
variant's spare-bit mask in turn. -/
def mergeAllSpareBits (masks : List (List Bool)) (acc : List Bool) :
    List Bool :=
  masks.foldl (fun b m => applySpareBitsMask m b) acc

/-- Abstract state of an `IRGenFunction`: the instruction stream emitted so
far into the current function. -/
structure IRGenFunction where
  instructions : List Nat
  deriving Repr, DecidableEq

/-- `initializeValueWitnessTable(IGF, metadata, vwtable)`: the override for
fixed types has an empty body; it emits nothing and changes nothing,
returning the emission state and descriptor as they were. -/
def FixedTypeInfo.initializeValueWitnessTable (ti : FixedTypeInfo)
    (IGF : IRGenFunction) (metadata vwtable : Nat) :
    IRGenFunction × FixedTypeInfo :=
  (IGF, ti)

/-- The scenario descriptor from the spec: a 1-byte type whose two low bits
are spare. -/
def sbTest8 : FixedTypeInfo :=
  { StorageSize := 1
    SpareBits := [true, true, false, false, false, false, false, false]
    StorageAlignment := 1
    pod := true }

/-- A descriptor used to exercise `getFixedStride` and `completeFixed`. -/
def sbTest4 : FixedTypeInfo :=
  { StorageSize := 5
    SpareBits := []
    StorageAlignment := 4
    pod := true }

/-! ### Helper lemmas about rounding -/

theorem roundUpToAlignment_dvd (s a : Nat) :
    a ∣ Size.roundUpToAlignment s a :=
  ⟨(s + a - 1) / a, Nat.mul_comm _ _⟩

theorem roundUpToAlignment_bounds (s a : Nat) (ha : 0 < a) :
    s ≤ Size.roundUpToAlignment s a ∧ Size.roundUpToAlignment s a - s < a := by
  have hdm := Nat.div_add_mod (s + a - 1) a
  have hmlt : (s + a - 1) % a < a := Nat.mod_lt _ ha
  unfold Size.roundUpToAlignment
  rw [Nat.mul_comm]
  generalize hM : a * ((s + a - 1) / a) = M at hdm ⊢
  generalize hr : (s + a - 1) % a = r at hdm hmlt
  omega

/-- Claim C4: for a descriptor whose alignment is a power of two, the fixed
stride is the storage size rounded up to the alignment, and it satisfies
`size ≤ stride`, `alignment ∣ stride`, and `stride - size < alignment`. -/
theorem getFixedStride_spec (ti : FixedTypeInfo)
    (ha : ∃ k, ti.StorageAlignment = 2 ^ k) :
    ti.getFixedStride =
        Size.roundUpToAlignment ti.StorageSize ti.StorageAlignment
      ∧ ti.StorageSize ≤ ti.getFixedStride
      ∧ ti.StorageAlignment ∣ ti.getFixedStride
      ∧ ti.getFixedStride - ti.StorageSize < ti.StorageAlignment := by
  obtain ⟨k, hk⟩ := ha
  have hpos : 0 < ti.StorageAlignment := by
    rw [hk]; exact Nat.pos_pow_of_pos k (by omega)
  have hb := roundUpToAlignment_bounds ti.StorageSize ti.StorageAlignment hpos
  exact ⟨rfl, hb.1, roundUpToAlignment_dvd _ _, hb.2⟩

/-- Witness for C4: the concrete descriptor with size 5 and alignment 4 has
stride 8, which is at least the size, a multiple of the alignment, and
within one alignment of the size. -/
theorem getFixedStride_spec_witness :
    sbTest4.getFixedStride =
        Size.roundUpToAlignment sbTest4.StorageSize sbTest4.StorageAlignment
      ∧ sbTest4.StorageSize ≤ sbTest4.getFixedStride
      ∧ sbTest4.StorageAlignment ∣ sbTest4.getFixedStride
      ∧ sbTest4.getFixedStride - sbTest4.StorageSize < sbTest4.StorageAlignment :=
  getFixedStride_spec sbTest4 ⟨2, rfl⟩

/-! ### completeFixed (claim C8) -/

/-- Counterexample for claim C8 as stated: `completeFixed` carries no
once-only precondition check.  Invoking it a second time on a descriptor
whose size and alignment were already fixed succeeds and overwrites the
stored values, so size and alignment are not set exactly once. -/
theorem completeFixed_twice_counterexample :
    ((sbTest4.completeFixed 2 2).completeFixed 4 8).StorageSize = 4
      ∧ ((sbTest4.completeFixed 2 2).completeFixed 4 8).StorageAlignment = 8
      ∧ (sbTest4.completeFixed 2 2).StorageSize = 2
      ∧ (sbTest4.completeFixed 2 2).StorageAlignment = 2 :=
  ⟨rfl, rfl, rfl, rfl⟩

/-- Claim C8 (amended): `completeFixed` unconditionally stores the given
size and alignment, leaving the spare bits and POD flag unchanged; repeated
invocations are permitted and each one overwrites, so the descriptor holds
the values from the most recent call. -/
theorem completeFixed_overwrites (ti : FixedTypeInfo) (s a s' a' : Nat) :
    (ti.completeFixed s a).StorageSize = s
      ∧ (ti.completeFixed s a).StorageAlignment = a
      ∧ (ti.completeFixed s a).SpareBits = ti.SpareBits
      ∧ (ti.completeFixed s a).pod = ti.pod
      ∧ (ti.completeFixed s a).completeFixed s' a' = ti.completeFixed s' a' :=
  ⟨rfl, rfl, rfl, rfl, rfl⟩

/-! ### initializeValueWitnessTable (claim C9) -/

/-- Claim C9: the fixed-type override of `initializeValueWitnessTable` has
an empty body: whatever metadata and table operands are passed, it emits no
instructions and leaves both the code-generation state and the descriptor
exactly as they were. -/
theorem initializeValueWitnessTable_noop (ti : FixedTypeInfo)
    (IGF : IRGenFunction) (metadata vwtable : Nat) :
    ti.initializeValueWitnessTable IGF metadata vwtable = (IGF, ti) :=
  rfl

/-! ### Scatter/gather lemmas for the spare-bit encode and decode -/

theorem scatterBits_cons_true (rest : List Bool) (v : Nat) :
    scatterBits (true :: rest) v = v % 2 + 2 * scatterBits rest (v / 2) := by
  simp [scatterBits]

theorem scatterBits_cons_false (rest : List Bool) (v : Nat) :
    scatterBits (false :: rest) v = 2 * scatterBits rest v := by
  simp [scatterBits]

theorem gatherBits_cons_true (rest : List Bool) (s : Nat) :
    gatherBits (true :: rest) s = s % 2 + 2 * gatherBits rest (s / 2) := by
  simp [gatherBits]

theorem gatherBits_cons_false (rest : List Bool) (s : Nat) :
    gatherBits (false :: rest) s = gatherBits rest (s / 2) := by
  simp [gatherBits]

theorem scatterBits_lt (m : List Bool) (v : Nat) :
    scatterBits m v < 2 ^ m.length := by
  induction m generalizing v with
  | nil => simp [scatterBits]
  | cons b rest ih =>
    cases b with
    | true =>
      have h1 := ih (v / 2)
      have h2 : v % 2 < 2 := Nat.mod_lt _ (by omega)
      rw [scatterBits_cons_true, List.length_cons, pow_succ]
      generalize hP : (2:Nat) ^ rest.length = P at h1 ⊢
      omega
    | false =>
      have h1 := ih v
      rw [scatterBits_cons_false, List.length_cons, pow_succ]
      generalize hP : (2:Nat) ^ rest.length = P at h1 ⊢
      omega

theorem gatherBits_scatterBits (m : List Bool) (v : Nat) :
    gatherBits m (scatterBits m v) = v % 2 ^ m.count true := by
  induction m generalizing v with
  | nil => simp [gatherBits, scatterBits, Nat.mod_one]
  | cons b rest ih =>
    cases b with
    | true =>
      have hx2 : (v % 2 + 2 * scatterBits rest (v / 2)) % 2 = v % 2 := by
        omega
      have hxd : (v % 2 + 2 * scatterBits rest (v / 2)) / 2 =
          scatterBits rest (v / 2) := by
        omega
      rw [scatterBits_cons_true, gatherBits_cons_true, hx2, hxd, ih,
        List.count_cons_self]
      rw [show (2:Nat) ^ (rest.count true + 1) = 2 * 2 ^ rest.count true from by
        ring]
      rw [Nat.mod_mul]
    | false =>
      have hxd : (2 * scatterBits rest v) / 2 = scatterBits rest v := by
        omega
      rw [scatterBits_cons_false, gatherBits_cons_false, hxd, ih]
      simp [List.count_cons]

/-- Claim C1: for every spare-bit mask, every bit width at least the type's
storage width, and every index below the extra-inhabitant count, decoding
the pattern produced by encoding that index yields the index back:
`decode(encode(M, bitWidth, index)) == index`. -/
theorem spareBit_encode_decode_roundtrip (ti : FixedTypeInfo)
    (bits index : Nat)
    (hinv : ti.SpareBits.length <= 8 * ti.StorageSize)
    (hbits : 8 * ti.StorageSize <= bits)
    (hindex : index < ti.getSpareBitExtraInhabitantCount) :
    ti.getSpareBitExtraInhabitantIndex
        (ti.getSpareBitFixedExtraInhabitantValue bits index) = (index : Int) := by
  have hlen : ti.SpareBits.length <= bits := le_trans hinv hbits
  have hlt : scatterBits ti.SpareBits (index + 1) < 2 ^ bits :=
    lt_of_lt_of_le (scatterBits_lt _ _)
      (Nat.pow_le_pow_right (by omega) hlen)
  have hidx : index + 1 < 2 ^ ti.SpareBits.count true := by
    have h1 : index < 2 ^ ti.SpareBits.count true - 1 :=
      lt_of_lt_of_le hindex (min_le_left _ _)
    generalize hP : (2:Nat) ^ ti.SpareBits.count true = P at h1 ⊢
    omega
  unfold FixedTypeInfo.getSpareBitExtraInhabitantIndex
    FixedTypeInfo.getSpareBitFixedExtraInhabitantValue
  rw [Nat.mod_eq_of_lt hlt, gatherBits_scatterBits, Nat.mod_eq_of_lt hidx]
  rw [if_neg (by omega)]
  push_cast
  ring

theorem spareBit_encode_decode_roundtrip_witness :
    sbTest8.getSpareBitExtraInhabitantIndex
        (sbTest8.getSpareBitFixedExtraInhabitantValue 8 2) = (2 : Int) :=
  spareBit_encode_decode_roundtrip sbTest8 8 2 (by decide) (by decide)
    (by decide)

theorem testBit_scatterBits (m : List Bool) (v i : Nat) :
    (scatterBits m v).testBit i =
      (m.getD i false && v.testBit ((m.take i).count true)) := by
  induction m generalizing v i with
  | nil => simp [scatterBits, Nat.zero_testBit]
  | cons b rest ih =>
    cases i with
    | zero =>
      cases b with
      | true =>
        rw [scatterBits_cons_true, Nat.testBit_zero]
        have : (v % 2 + 2 * scatterBits rest (v / 2)) % 2 = v % 2 := by omega
        rw [this]
        simp [Nat.testBit_zero]
      | false =>
        rw [scatterBits_cons_false, Nat.testBit_zero]
        have : (2 * scatterBits rest v) % 2 = 0 := by omega
        rw [this]
        simp
    | succ j =>
      cases b with
      | true =>
        rw [scatterBits_cons_true, Nat.testBit_succ]
        have : (v % 2 + 2 * scatterBits rest (v / 2)) / 2 =
            scatterBits rest (v / 2) := by omega
        rw [this, ih]
        simp [List.count_cons, Nat.testBit_succ]
      | false =>
        rw [scatterBits_cons_false, Nat.testBit_succ]
        have : (2 * scatterBits rest v) / 2 = scatterBits rest v := by omega
        rw [this, ih]
        simp [List.count_cons]

/-- Claim C5: the encode operation produces the pattern whose k-th
spare-bit position holds bit k of `index + 1` and whose other bits are
zero: bit `i` of the result is set iff `i` is a spare-bit position and bit
`(number of spare bits below i)` of `index + 1` is set.  For the 1-byte
type with spare bits bit0 and bit1 the count is 3,
`encode(bitWidth=8, index=0)` is `0b00000001` and `encode(index=2)` is
`0b00000011`. -/
theorem getSpareBitFixedExtraInhabitantValue_spec (ti : FixedTypeInfo)
    (bits index : Nat) (hlen : ti.SpareBits.length <= bits) :
    (∀ i, (ti.getSpareBitFixedExtraInhabitantValue bits index).testBit i =
        (ti.SpareBits.getD i false &&
          (index + 1).testBit ((ti.SpareBits.take i).count true)))
      ∧ sbTest8.getSpareBitExtraInhabitantCount = 3
      ∧ sbTest8.getSpareBitFixedExtraInhabitantValue 8 0 = 1
      ∧ sbTest8.getSpareBitFixedExtraInhabitantValue 8 2 = 3 := by
  refine ⟨?_, by decide, by decide, by decide⟩
  intro i
  unfold FixedTypeInfo.getSpareBitFixedExtraInhabitantValue
  rw [Nat.testBit_mod_two_pow]
  by_cases h : i < bits
  · rw [decide_eq_true h, Bool.true_and]
    exact testBit_scatterBits _ _ _
  · have h1 : ti.SpareBits.getD i false = false :=
      List.getD_eq_default _ _ (le_trans hlen (by omega))
    rw [decide_eq_false h, Bool.false_and, h1, Bool.false_and]

theorem getSpareBitFixedExtraInhabitantValue_spec_witness :
    sbTest8.getSpareBitFixedExtraInhabitantValue 8 0 = 1 :=
  (getSpareBitFixedExtraInhabitantValue_spec sbTest8 8 0 (by decide)).2.2.1

theorem gatherBits_eq_zero_iff (m : List Bool) (s : Nat) :
    gatherBits m s = 0 ↔
      ∀ i, m.getD i false = true → s.testBit i = false := by
  induction m generalizing s with
  | nil => simp [gatherBits]
  | cons b rest ih =>
    cases b with
    | true =>
      rw [gatherBits_cons_true]
      constructor
      · intro h i hb
        cases i with
        | zero =>
          rw [Nat.testBit_zero]
          have : s % 2 = 0 := by omega
          simp [this]
        | succ j =>
          have h2 : gatherBits rest (s / 2) = 0 := by omega
          have := (ih (s / 2)).mp h2 j (by simpa using hb)
          rw [Nat.testBit_succ]
          exact this
      · intro h
        have h0 : s % 2 = 0 := by
          have := h 0 (by simp)
          rw [Nat.testBit_zero] at this
          simp at this
          omega
        have hrest : gatherBits rest (s / 2) = 0 := by
          apply (ih (s / 2)).mpr
          intro j hj
          have := h (j + 1) (by simpa using hj)
          rw [Nat.testBit_succ] at this
          exact this
        omega
    | false =>
      rw [gatherBits_cons_false, ih (s / 2)]
      constructor
      · intro h i hb
        cases i with
        | zero => simp at hb
        | succ j =>
          rw [Nat.testBit_succ]
          exact h j (by simpa using hb)
      · intro h j hj
        have := h (j + 1) (by simpa using hj)
        rw [Nat.testBit_succ] at this
        exact this

/-- Claim C6: the decode operation returns the sentinel `-1` iff the bits
of the source selected by the spare-bit mask are all zero; otherwise it
returns `v - 1` where `v` is the masked bits compacted in spare-bit scan
order. -/
theorem getSpareBitExtraInhabitantIndex_spec (ti : FixedTypeInfo) (src : Nat) :
    (ti.getSpareBitExtraInhabitantIndex src = -1 ↔
        ∀ i, ti.SpareBits.getD i false = true → src.testBit i = false)
      ∧ (gatherBits ti.SpareBits src ≠ 0 →
        ti.getSpareBitExtraInhabitantIndex src =
          (gatherBits ti.SpareBits src : Int) - 1) := by
  constructor
  · rw [← gatherBits_eq_zero_iff]
    unfold FixedTypeInfo.getSpareBitExtraInhabitantIndex
    by_cases h : gatherBits ti.SpareBits src = 0
    · simp [h]
    · rw [if_neg h]
      constructor
      · intro habs
        exfalso
        have hz : (gatherBits ti.SpareBits src : Int) = 0 := by omega
        exact h (by exact_mod_cast hz)
      · intro hv
        exact absurd hv h
  · intro h
    unfold FixedTypeInfo.getSpareBitExtraInhabitantIndex
    rw [if_neg h]

theorem getSpareBitExtraInhabitantIndex_spec_witness :
    sbTest8.getSpareBitExtraInhabitantIndex 2 =
      (gatherBits sbTest8.SpareBits 2 : Int) - 1 :=
  (getSpareBitExtraInhabitantIndex_spec sbTest8 2).2 (by decide)

theorem list_any_id_eq_count (l : List Bool) :
    l.any id = decide (0 < l.count true) := by
  induction l with
  | nil => simp
  | cons b rest ih =>
    cases b with
    | true =>
      rw [List.any_cons, List.count_cons_self]
      simp
    | false =>
      have hc : (false :: rest).count true = rest.count true := by
        simp [List.count_cons]
      rw [List.any_cons, hc]
      simp only [id, Bool.false_or]
      exact ih

/-- Claim C10: with the default spare-bit-based extra-inhabitant count,
`mayHaveExtraInhabitants()` returns true iff `hasFixedSpareBits()` does:
the count is positive exactly when the spare-bit mask has a set bit. -/
theorem mayHaveExtraInhabitants_iff_hasFixedSpareBits (ti : FixedTypeInfo) :
    ti.mayHaveExtraInhabitants = ti.hasFixedSpareBits := by
  unfold FixedTypeInfo.mayHaveExtraInhabitants
    FixedTypeInfo.getFixedExtraInhabitantCount
    FixedTypeInfo.getSpareBitExtraInhabitantCount
    FixedTypeInfo.hasFixedSpareBits
  rw [list_any_id_eq_count, decide_eq_decide]
  rw [gt_iff_lt, Nat.lt_min]
  unfold INDEX_MAX
  constructor
  · intro h
    have h2 : 1 < 2 ^ ti.SpareBits.count true := by omega
    have h3 := Nat.one_lt_two_pow_iff.mp h2
    omega
  · intro h
    constructor
    · have h2 : 1 < 2 ^ ti.SpareBits.count true :=
        Nat.one_lt_two_pow_iff.mpr (by omega)
      omega
    · norm_num

theorem count_true_eq_countP_range (m : List Bool) :
    m.count true = (List.range m.length).countP (fun i => m.getD i false) := by
  induction m with
  | nil => rfl
  | cons b rest ih =>
    rw [List.length_cons, List.range_succ_eq_map, List.countP_cons,
      List.countP_map]
    have hcomp :
        ((fun i => (b :: rest).getD i false) ∘ Nat.succ) =
          fun i => rest.getD i false := by
      funext i
      simp [List.getD_cons_succ]
    rw [hcomp, ← ih, List.getD_cons_zero]
    cases b with
    | true => rw [List.count_cons_self]; simp
    | false =>
      have hc : (false :: rest).count true = rest.count true := by
        simp [List.count_cons]
      rw [hc]
      simp

theorem countP_range_extend (m : List Bool) {n : Nat} (hn : m.length <= n) :
    (List.range n).countP (fun i => m.getD i false) =
      (List.range m.length).countP (fun i => m.getD i false) := by
  have hsplit : n = m.length + (n - m.length) := by omega
  rw [hsplit, List.range_add, List.countP_append]
  have hz : (List.countP (fun i => m.getD i false)
      (List.map (fun x => m.length + x) (List.range (n - m.length)))) = 0 := by
    rw [List.countP_map]
    apply List.countP_eq_zero.mpr
    intro a _
    simp only [Function.comp]
    rw [List.getD_eq_default _ _ (by omega : m.length <= m.length + a)]
    simp
  omega

theorem count_true_le_of_subset {m m' : List Bool}
    (h : ∀ i, m.getD i false = true → m'.getD i false = true) :
    m.count true <= m'.count true := by
  rw [count_true_eq_countP_range m, count_true_eq_countP_range m']
  rw [← countP_range_extend m (le_max_left m.length m'.length),
    ← countP_range_extend m' (le_max_right m.length m'.length)]
  exact List.countP_mono_left fun i _ hp => h i hp

/-- Claim C2: the default extra-inhabitant count equals
`min(2^popcount(spareBitMask) - 1, INDEX_MAX)` with `INDEX_MAX` the largest
31-bit unsigned value; it never exceeds `INDEX_MAX` (saturating instead of
overflowing), and it is monotonically non-decreasing as spare bits are
added to the mask. -/
theorem getSpareBitExtraInhabitantCount_spec (ti ti' : FixedTypeInfo)
    (h : ∀ i, ti.SpareBits.getD i false = true →
      ti'.SpareBits.getD i false = true) :
    ti.getSpareBitExtraInhabitantCount =
        min (2 ^ ti.SpareBits.count true - 1) INDEX_MAX
      ∧ INDEX_MAX = 2 ^ 31 - 1
      ∧ ti.getSpareBitExtraInhabitantCount <= INDEX_MAX
      ∧ ti.getSpareBitExtraInhabitantCount <=
          ti'.getSpareBitExtraInhabitantCount := by
  refine ⟨rfl, rfl, min_le_right _ _, ?_⟩
  have hc := count_true_le_of_subset h
  unfold FixedTypeInfo.getSpareBitExtraInhabitantCount
  exact min_le_min
    (Nat.sub_le_sub_right (Nat.pow_le_pow_right (by omega) hc) 1) le_rfl

theorem getSpareBitExtraInhabitantCount_spec_witness :
    sbTest4.getSpareBitExtraInhabitantCount <=
      sbTest8.getSpareBitExtraInhabitantCount :=
  (getSpareBitExtraInhabitantCount_spec sbTest4 sbTest8
    (by intro i h; simp [sbTest4, List.getD_nil] at h)).2.2.2

theorem applySpareBitsMask_length (spare bits : List Bool) :
    (applySpareBitsMask spare bits).length = max bits.length spare.length := by
  simp [applySpareBitsMask]

theorem mget_applySpareBitsMask (spare bits : List Bool) (i : Nat) :
    mget (applySpareBitsMask spare bits) i = (mget bits i && mget spare i) := by
  unfold applySpareBitsMask mget
  by_cases h : i < max bits.length spare.length
  · rw [List.getD_eq_getElem _ _ (by simpa using h)]
    simp [List.getElem_map, List.getElem_range]
  · have h1 : bits.length <= i := by omega
    have h2 : spare.length <= i := by omega
    rw [List.getD_eq_default _ _ (by simpa using h),
      List.getD_eq_default _ _ h1, List.getD_eq_default _ _ h2]
    rfl

theorem mask_ext {l1 l2 : List Bool} (hlen : l1.length = l2.length)
    (h : ∀ i, mget l1 i = mget l2 i) : l1 = l2 := by
  apply List.ext_getElem hlen
  intro n h1 h2
  have hn := h n
  unfold mget at hn
  rwa [List.getD_eq_getElem _ _ h1, List.getD_eq_getElem _ _ h2] at hn

theorem applySpareBitsMask_swap (x y b : List Bool) :
    applySpareBitsMask y (applySpareBitsMask x b) =
      applySpareBitsMask x (applySpareBitsMask y b) := by
  apply mask_ext
  · simp only [applySpareBitsMask_length]
    omega
  · intro i
    simp only [mget_applySpareBitsMask]
    cases mget b i <;> cases mget x i <;> cases mget y i <;> rfl

theorem mergeAllSpareBits_perm {l1 l2 : List (List Bool)} (p : l1.Perm l2) :
    ∀ b, mergeAllSpareBits l1 b = mergeAllSpareBits l2 b := by
  induction p with
  | nil => intro b; rfl
  | cons x p ih =>
    intro b
    simp only [mergeAllSpareBits, List.foldl_cons] at ih ⊢
    exact ih _
  | swap x y l =>
    intro b
    simp only [mergeAllSpareBits, List.foldl_cons]
    rw [applySpareBitsMask_swap]
  | trans p q ih1 ih2 =>
    intro b
    rw [ih1 b, ih2 b]

theorem mget_mergeAllSpareBits (masks : List (List Bool)) (b : List Bool)
    (i : Nat) :
    mget (mergeAllSpareBits masks b) i =
      (mget b i && masks.all (fun m => mget m i)) := by
  induction masks generalizing b with
  | nil => simp [mergeAllSpareBits]
  | cons m rest ih =>
    simp only [mergeAllSpareBits, List.foldl_cons] at ih ⊢
    rw [ih (applySpareBitsMask m b), mget_applySpareBitsMask, List.all_cons,
      Bool.and_assoc]

theorem length_mergeAllSpareBits (masks : List (List Bool)) (b : List Bool) :
    (mergeAllSpareBits masks b).length =
      masks.foldl (fun n m => max n m.length) b.length := by
  induction masks generalizing b with
  | nil => rfl
  | cons m rest ih =>
    simp only [mergeAllSpareBits, List.foldl_cons] at ih ⊢
    rw [ih (applySpareBitsMask m b), applySpareBitsMask_length]

/-- Claim C3: folding the spare-bit merge over a fixed set of variant
masks is order-independent (any permutation of the masks gives the same
final mask), the result is the bitwise intersection of all the variant
masks (bit `i` of the fold is set iff bit `i` is set, under the
extend-with-spare view, in every variant), and merging the equal-length
masks `10100000` and `11000000` yields `10000000`. -/
theorem applyFixedSpareBitsMask_fold_spec (masks masks' : List (List Bool))
    (b : List Bool) (hp : masks.Perm masks') :
    mergeAllSpareBits masks b = mergeAllSpareBits masks' b
      ∧ (∀ i, mget (mergeAllSpareBits masks []) i =
          masks.all (fun m => mget m i))
      ∧ applySpareBitsMask
          [true, false, true, false, false, false, false, false]
          [true, true, false, false, false, false, false, false] =
        [true, false, false, false, false, false, false, false] := by
  refine ⟨mergeAllSpareBits_perm hp b, ?_, by decide⟩
  intro i
  rw [mget_mergeAllSpareBits]
  simp [mget]

theorem applyFixedSpareBitsMask_fold_spec_witness :
    mergeAllSpareBits [[true, false, true], [true, true]] [] =
      mergeAllSpareBits [[true, true], [true, false, true]] [] :=
  (applyFixedSpareBitsMask_fold_spec [[true, false, true], [true, true]]
    [[true, true], [true, false, true]] [] (by decide)).1

theorem getD_applySpareBitsMask_high_spare (spare bits : List Bool) (i : Nat)
    (hbi : bits.length <= i) :
    (applySpareBitsMask spare bits).getD i false = spare.getD i false := by
  unfold applySpareBitsMask
  by_cases h : i < max bits.length spare.length
  · have hspare : i < spare.length := by omega
    rw [List.getD_eq_getElem _ _ (by simpa using h)]
    simp only [List.getElem_map, List.getElem_range]
    rw [List.getD_eq_default _ _ hbi, Bool.true_and]
    rw [List.getD_eq_getElem spare true hspare,
      List.getD_eq_getElem spare false hspare]
  · have h1 : spare.length <= i := by omega
    rw [List.getD_eq_default _ _ (by simpa using h),
      List.getD_eq_default _ _ h1]

theorem getD_applySpareBitsMask_high_bits (spare bits : List Bool) (i : Nat)
    (hsi : spare.length <= i) :
    (applySpareBitsMask spare bits).getD i false = bits.getD i false := by
  unfold applySpareBitsMask
  by_cases h : i < max bits.length spare.length
  · have hbits : i < bits.length := by omega
    rw [List.getD_eq_getElem _ _ (by simpa using h)]
    simp only [List.getElem_map, List.getElem_range]
    rw [List.getD_eq_default _ _ hsi, Bool.and_true]
    rw [List.getD_eq_getElem bits true hbits,
      List.getD_eq_getElem bits false hbits]
  · have h1 : bits.length <= i := by omega
    rw [List.getD_eq_default _ _ (by simpa using h),
      List.getD_eq_default _ _ h1]

/-- Claim C7: when this type's spare-bit mask is merged into an
accumulator, a shorter accumulator is extended to the mask's length with
the new positions taken directly from this mask's bits, and a longer
accumulator keeps every position beyond the mask's length unchanged. -/
theorem applyFixedSpareBitsMask_frame (ti : FixedTypeInfo)
    (bits : List Bool) :
    (bits.length < ti.SpareBits.length →
        (ti.applyFixedSpareBitsMask bits).length = ti.SpareBits.length
          ∧ ∀ i, bits.length <= i →
            (ti.applyFixedSpareBitsMask bits).getD i false =
              ti.SpareBits.getD i false)
      ∧ (ti.SpareBits.length < bits.length →
        (ti.applyFixedSpareBitsMask bits).length = bits.length
          ∧ ∀ i, ti.SpareBits.length <= i →
            (ti.applyFixedSpareBitsMask bits).getD i false =
              bits.getD i false) := by
  unfold FixedTypeInfo.applyFixedSpareBitsMask
  constructor
  · intro h
    refine ⟨?_, fun i hi => getD_applySpareBitsMask_high_spare _ _ _ hi⟩
    rw [applySpareBitsMask_length]
    omega
  · intro h
    refine ⟨?_, fun i hi => getD_applySpareBitsMask_high_bits _ _ _ hi⟩
    rw [applySpareBitsMask_length]
    omega

theorem applyFixedSpareBitsMask_frame_witness :
    (sbTest8.applyFixedSpareBitsMask [true]).length =
        sbTest8.SpareBits.length
      ∧ (sbTest8.applyFixedSpareBitsMask [true]).getD 3 false =
          sbTest8.SpareBits.getD 3 false :=
  ⟨((applyFixedSpareBitsMask_frame sbTest8 [true]).1 (by decide)).1,
    ((applyFixedSpareBitsMask_frame sbTest8 [true]).1 (by decide)).2 3
      (by decide)⟩
